import Mathlib

/-!
Verification of the temporal outbreak distributor of `lsoa_plot.py`
(repository `palfrey/autocovid`).

Embedding conventions:

* Python floats are modelled as exact rationals (`ℚ`).  Every claim settled
  over this model concerns integer schedules, list lifecycles and control
  flow, all of which are independent of the particular rounding of IEEE
  floats; the one genuinely irrational quantity of the program, the
  per-frame decay factor `decay_rate = 0.5 ** (1 / (frames_per_day * 7))`,
  is treated separately: the run-level model takes the decay factor as an
  explicit rational parameter (the float the program computes is some
  rational in `[1/2, 1)`), and the value-specific decay facts are proved
  over `ℝ` with the real power function (`decay_rate` below).
* Fallible Python operations (list indexing, `del` on an index, the
  division performed while computing the decay exponent) are modelled with
  `Except String` / `Option`; the error strings mirror the Python
  exception that would be raised.
* `frames_per_day` is the configured integer (read from the prompt); the
  program uses `frames_per_day * 7` frames per week.  The schedule
  functions take the full frame count `fpw` as an integer so that the
  behaviour for non-positive configurations can be stated as well
  (Python `range` of a non-positive number is empty, hence `Int.toNat`).
* `pyInt` is Python's `int()` applied to a number: truncation toward zero.
* Rendering, file I/O, date formatting and the `matplotlib` calls of the
  source are out of scope (external collaborators per the specification);
  the model keeps exactly the data that the distributor manipulates:
  magnitude, coordinates and age of each entry.
-/

/-- An outbreak event as parsed from a weekly column of the data file:
`[cases, x, y]` with `cases > 2` (source line 159). -/
structure Event where
  mag : ℚ
  x : ℚ
  y : ℚ
deriving DecidableEq, Repr

/-- A historical entry: an emitted event extended with its age in weeks
(source line 230 appends the age column `0` to the event list). -/
structure Entry where
  mag : ℚ
  x : ℚ
  y : ℚ
  age : ℚ
deriving DecidableEq, Repr

/-- Python `int()` on a rational: truncation toward zero. -/
def pyInt (q : ℚ) : ℤ := if q < 0 then ⌈q⌉ else ⌊q⌋

/-- Source line 178: `start_point_rel = ((week_count + previous_week_count) / 2.0 ) / week_count`. -/
def start_point_rel (prev cur : ℕ) : ℚ := (((cur : ℚ) + (prev : ℚ)) / 2) / (cur : ℚ)

/-- Source line 179: `end_point_rel = (( (future_week_count - week_count) / 2.0) / week_count) + 1`. -/
def end_point_rel (cur fut : ℕ) : ℚ := (((fut : ℚ) - (cur : ℚ)) / 2) / (cur : ℚ) + 1

/-- Source lines 181-191: the list of relative weights for one week.
`fpw` is `frames_per_day * 7`; `rmp = int(frames_per_day * 3.5)` is the
truncation toward zero of `fpw / 2` (exact, `0.5` being dyadic), and
`smp = fpw - rmp`.  When `rmp <= 0` Python leaves `rmp_step` undefined and
never reads it (the `range` is empty); the model uses `0` there. -/
def rel_list (fpw : ℤ) (prev cur fut : ℕ) : List ℚ :=
  let spr := start_point_rel prev cur
  let epr := end_point_rel cur fut
  let rmp : ℤ := pyInt ((fpw : ℚ) / 2)
  let smp : ℤ := fpw - rmp
  let rmp_step : ℚ := if 0 < rmp then (1 - spr) / (rmp : ℚ) else 0
  let smp_step : ℚ := (1 - epr) / (smp : ℚ)
  ((List.range rmp.toNat).map fun i : ℕ => spr + (i : ℚ) * rmp_step) ++
    ((List.range smp.toNat).map fun i : ℕ => 1 - (i : ℚ) * smp_step)

/-- Source line 192: `normalised_rel = [((val / sum(rel_list)) * week_count) for val in rel_list]`. -/
def normalised_rel (fpw : ℤ) (prev cur fut : ℕ) : List ℚ :=
  (rel_list fpw prev cur fut).map fun v => v / (rel_list fpw prev cur fut).sum * (cur : ℚ)

/-- Source lines 198-202: the running-total truncation loop.  State:
`t` is `t_count`, `added` the previous truncated total; each step emits
`int(t_count) - added`.  Returns the emitted list and the final `added`. -/
def truncLoop : List ℚ → ℚ → ℤ → List ℤ × ℤ
  | [], _, added => ([], added)
  | v :: rest, t, added =>
    let t' := t + v
    let iv := pyInt t'
    let (l, fin) := truncLoop rest t' iv
    ((iv - added) :: l, fin)

/-- Source lines 195-203: the integer schedule for one week.  The loop
runs over the first `fpw - 1` normalised weights, and the final slot is
`week_count - added`. -/
def normalised_list (fpw : ℤ) (prev cur fut : ℕ) : List ℤ :=
  let nr := normalised_rel fpw prev cur fut
  let (l, added) := truncLoop (nr.take (fpw - 1).toNat) 0 0
  l ++ [(cur : ℤ) - added]

/-- Source line 230: an emitted event is extended with the age column `0`
before it is appended to the frame. -/
def toEntry (e : Event) : Entry := ⟨e.mag, e.x, e.y, 0⟩

/-- Source lines 227-232: the `while(case_index < int(r_tot))` loop of one
frame.  `ci` is `case_index`, `t` is `int(r_tot)` (an integer here, since
`r_tot` starts at `0` and only integer schedule slots are added to it).
`weekly_outbreaks[case_index]` raises `IndexError` when out of range.
The guard `if(case_index < len(weekly_outbreaks))` of line 231 is dead
code: the indexing on line 229 has already raised by the time it would be
false.  Returns the frame's new entries and the final `case_index`. -/
def emitRange (evs : List Event) (ci : ℕ) (t : ℤ) : Except String (List Entry × ℕ) :=
  if _h : (ci : ℤ) < t then
    match evs[ci]? with
    | none => .error "list index out of range"
    | some e =>
      match emitRange evs (ci + 1) t with
      | .error msg => .error msg
      | .ok (l, cif) => .ok (toEntry e :: l, cif)
  else .ok ([], ci)
termination_by (t - ci).toNat
decreasing_by omega

/-- Source lines 219-232 restricted to emission: fold the per-frame
`r_tot += normalised_list[frame]; while ...` over the schedule slots,
threading `case_index` and `r_tot`. -/
def emitFrames (evs : List Event) : List ℤ → ℕ → ℤ → Except String (List (List Entry))
  | [], _, _ => .ok []
  | s :: rest, ci, rt =>
    let rt' := rt + s
    match emitRange evs ci rt' with
    | .error msg => .error msg
    | .ok (fo, ci') =>
      match emitFrames evs rest ci' rt' with
      | .error msg => .error msg
      | .ok frames => .ok (fo :: frames)

/-- Python `del l[i]`: removes the element at position `i`, `none` when
`i` is out of range (`IndexError`). -/
def delAt : List Entry → ℕ → Option (List Entry)
  | [], _ => none
  | _ :: xs, 0 => some xs
  | x :: xs, n + 1 => (delAt xs n).map (x :: ·)

/-- Source lines 245-246: `for del_line in del_entry: del historical_outbreaks[del_line]` —
the collected indices are deleted one after the other against the list as
it shrinks. -/
def deleteIndices : List Entry → List ℕ → Except String (List Entry)
  | l, [] => .ok l
  | l, i :: rest =>
    match delAt l i with
    | none => .error "list index out of range"
    | some l' => deleteIndices l' rest

/-- Source lines 235-246: one frame's historical update.  Every entry's
magnitude is multiplied by the decay factor and its age incremented by
`1 / (frames_per_day * 7)`; the indices whose decayed magnitude is below
`0.6` are collected first and deleted afterwards.  `decay` is the float
`decay_rate` of source line 124 as a parameter (its exact value,
`0.5 ** (1 / (7 * fpd))`, is irrational; the float the program computes
is some rational in `[1/2, 1)` for `fpd >= 1`). -/
def updateHistorical (decay : ℚ) (fpd : ℤ) (hist : List Entry) : Except String (List Entry) :=
  let upd := hist.map fun e => { e with mag := e.mag * decay, age := e.age + 1 / (7 * (fpd : ℚ)) }
  let dels := (hist.enum.filter fun p => p.2.mag * decay < 3/5).map Prod.fst
  deleteIndices upd dels

/-- Source lines 222-304, one frame: add the schedule slot `s` to `r_tot`,
emit the new entries (lines 227-232), run the historical decay and purge
(lines 235-246), and only then extend the historical list with this
frame's new entries (line 304).  Returns the frame's new entries, the new
`case_index` and `r_tot`, and the historical list as left for the next
frame. -/
def frameStep (decay : ℚ) (fpd : ℤ) (evs : List Event) (ci : ℕ) (rt : ℤ) (s : ℤ)
    (hist : List Entry) : Except String (List Entry × ℕ × ℤ × List Entry) :=
  let rt' := rt + s
  match emitRange evs ci rt' with
  | .error msg => .error msg
  | .ok (fo, ci') =>
    match updateHistorical decay fpd hist with
    | .error msg => .error msg
    | .ok hist' => .ok (fo, ci', rt', hist' ++ fo)

/-- Source lines 222-304: the `for frame in range(frames_per_day * 7)`
loop, reading `normalised_list[frame]` (an `IndexError` when the stored
schedule is too short) and running `frameStep` per frame. -/
def weekFramesAux (decay : ℚ) (fpd : ℤ) (sched : List ℤ) (evs : List Event) :
    List ℕ → ℕ → ℤ → List Entry → Except String (List (List Entry) × List Entry)
  | [], _, _, hist => .ok ([], hist)
  | fr :: rest, ci, rt, hist =>
    match sched[fr]? with
    | none => .error "list index out of range"
    | some s =>
      match frameStep decay fpd evs ci rt s hist with
      | .error msg => .error msg
      | .ok (fo, ci', rt', hist') =>
        match weekFramesAux decay fpd sched evs rest ci' rt' hist' with
        | .error msg => .error msg
        | .ok (frames, histF) => .ok (fo :: frames, histF)

/-- One started week's frame loop: `case_index = 0`, `r_tot = 0`
(source lines 219-220), frames `0, ..., frames_per_day * 7 - 1`. -/
def weekFrames (decay : ℚ) (fpd : ℤ) (sched : List ℤ) (evs : List Event)
    (hist : List Entry) : Except String (List (List Entry) × List Entry) :=
  weekFramesAux decay fpd sched evs (List.range (7 * fpd).toNat) 0 0 hist

/-- The mutable state the week loop threads from week to week:
`started` (source line 130), `previous_week_count` (line 136), the
`normalised_list` variable — which persists unchanged through a week with
`week_count = 0` (the `if(week_count > 0)` guard of line 176) — and
`historical_outbreaks` (line 133). -/
structure WState where
  started : Bool
  prevCount : ℕ
  sched : List ℤ
  hist : List Entry
deriving DecidableEq, Repr

/-- Source lines 176-304, one week: recompute the schedule only when
`week_count > 0`; set `previous_week_count`; start once a week has
outbreaks; when started, run the frame loop on the shuffled outbreak
list.  `shuffled` is the week's outbreak list after `random.shuffle`
(line 218); `cur` is `week_count`, computed from the unshuffled list. -/
def weekStep (decay : ℚ) (fpd : ℤ) (shuffled : List Event) (cur fut : ℕ)
    (st : WState) : Except String (List (List Entry) × WState) :=
  let sched := if 0 < cur then normalised_list (7 * fpd) st.prevCount cur fut else st.sched
  if st.started || decide (0 < cur) then
    match weekFrames decay fpd sched shuffled st.hist with
    | .error msg => .error msg
    | .ok (frames, hist') => .ok (frames, ⟨true, cur, sched, hist'⟩)
  else .ok ([], ⟨false, cur, sched, st.hist⟩)

/-- Source lines 138-304: the week loop.  `weeks` holds each week's parsed
outbreak list; `future_week_count` is the next week's count, or the
current week's for the final week (lines 150, 169-170); `shuffle w evs`
models `random.shuffle` at week `w` for a fixed seed of the global random
number generator.  The model takes each week's event list as already
parsed, so `future_week_count` equals the next week's list length; in the
source the two can differ only on rows the parse drops (malformed cells,
or identifiers with more than two cases that are missing from the
coordinate table), which the specification places out of scope. -/
def runWeeksAux (decay : ℚ) (fpd : ℤ) (shuffle : ℕ → List Event → List Event) :
    List (List Event) → ℕ → WState →
    Except String (List (List (List Entry)) × WState)
  | [], _, st => .ok ([], st)
  | evs :: rest, w, st =>
    let cur := evs.length
    let fut := match rest with
      | [] => cur
      | nxt :: _ => nxt.length
    match weekStep decay fpd (shuffle w evs) cur fut st with
    | .error msg => .error msg
    | .ok (frames, st') =>
      match runWeeksAux decay fpd shuffle rest (w + 1) st' with
      | .error msg => .error msg
      | .ok (frTail, stF) => .ok (frames :: frTail, stF)

/-- The whole distributor run: `started = False`, empty historical list,
`previous_week_count = 0` (source lines 130-136); the `normalised_list`
variable is unbound before the first non-zero week and is modelled as
`[]` (it is only ever read once `started` holds, which requires a
non-zero week to have assigned it). -/
def runWeeks (decay : ℚ) (fpd : ℤ) (shuffle : ℕ → List Event → List Event)
    (weeks : List (List Event)) : Except String (List (List (List Entry)) × WState) :=
  runWeeksAux decay fpd shuffle weeks 0 ⟨false, 0, [], []⟩

/-- The identity model of `random.shuffle`: a permutation that leaves the
list unchanged (used for concrete runs). -/
def idShuffle : ℕ → List Event → List Event := fun _ l => l

/-- Source line 124, `decay_rate = math.pow(weekly_decay, 1.0 / (frames_per_day * 7.0))`,
split into the part that can fail: the exponent `1.0 / (frames_per_day * 7.0)`
raises `ZeroDivisionError` exactly when `frames_per_day = 0`; no other
validation of `frames_per_day` exists anywhere in the source. -/
def initDecayExponent (fpd : ℤ) : Except String ℚ :=
  if (7 : ℚ) * (fpd : ℚ) = 0 then .error "float division by zero"
  else .ok (1 / (7 * (fpd : ℚ)))

/-- Source line 124 over the reals: the per-frame decay factor
`0.5 ** (1 / (frames_per_day * 7))`. -/
noncomputable def decay_rate (fpd : ℤ) : ℝ := (1 / 2 : ℝ) ^ ((1 : ℝ) / (7 * (fpd : ℝ)))

/-! ## Basic facts about `pyInt` and the truncation loop -/

theorem pyInt_zero : pyInt 0 = 0 := by simp [pyInt]

theorem pyInt_of_nonneg {q : ℚ} (h : 0 ≤ q) : pyInt q = ⌊q⌋ := if_neg (not_lt.mpr h)

theorem pyInt_mono {a b : ℚ} (h : a ≤ b) : pyInt a ≤ pyInt b := by
  unfold pyInt
  split_ifs with h1 h2 h2
  · exact Int.ceil_le_ceil h
  · have ha : ⌈a⌉ ≤ (0 : ℤ) := Int.ceil_le.mpr (by push_cast; exact h1.le)
    have hb : (0 : ℤ) ≤ ⌊b⌋ := Int.le_floor.mpr (by push_cast; exact not_lt.mp h2)
    omega
  · exact absurd (lt_of_le_of_lt h h2) h1
  · exact Int.floor_le_floor h

theorem truncLoop_cons (v : ℚ) (rest : List ℚ) (t : ℚ) (a : ℤ) :
    truncLoop (v :: rest) t a =
      ((pyInt (t + v) - a) :: (truncLoop rest (t + v) (pyInt (t + v))).1,
        (truncLoop rest (t + v) (pyInt (t + v))).2) := rfl

theorem truncLoop_length : ∀ (l : List ℚ) (t : ℚ) (a : ℤ),
    (truncLoop l t a).1.length = l.length
  | [], _, _ => rfl
  | v :: rest, t, a => by
    rw [truncLoop_cons]
    simp [truncLoop_length rest]

theorem truncLoop_sum : ∀ (l : List ℚ) (t : ℚ) (a : ℤ),
    (truncLoop l t a).1.sum = (truncLoop l t a).2 - a
  | [], _, _ => by simp [truncLoop]
  | v :: rest, t, a => by
    rw [truncLoop_cons]
    simp [truncLoop_sum rest]

theorem truncLoop_fin : ∀ (l : List ℚ) (t : ℚ),
    (truncLoop l t (pyInt t)).2 = pyInt (t + l.sum)
  | [], t => by simp [truncLoop]
  | v :: rest, t => by
    rw [truncLoop_cons]
    rw [truncLoop_fin rest (t + v)]
    simp only [List.sum_cons]
    congr 1
    ring

theorem truncLoop_mem_nonneg : ∀ (l : List ℚ) (t : ℚ), (∀ v ∈ l, 0 ≤ v) →
    ∀ s ∈ (truncLoop l t (pyInt t)).1, 0 ≤ s
  | [], _, _ => by simp [truncLoop]
  | v :: rest, t, hl => by
    rw [truncLoop_cons]
    intro s hs
    rcases List.mem_cons.mp hs with h | h
    · have hv : 0 ≤ v := hl v (by simp)
      have := pyInt_mono (show t ≤ t + v by linarith)
      omega
    · exact truncLoop_mem_nonneg rest (t + v) (fun w hw => hl w (by simp [hw])) s h

theorem truncLoop_take_sum : ∀ (l : List ℚ) (t : ℚ) (k : ℕ),
    ((truncLoop l t (pyInt t)).1.take k).sum = pyInt (t + (l.take k).sum) - pyInt t
  | [], t, k => by simp [truncLoop]
  | v :: rest, t, 0 => by simp
  | v :: rest, t, k + 1 => by
    rw [truncLoop_cons]
    simp only [List.take_succ_cons, List.sum_cons]
    rw [truncLoop_take_sum rest (t + v) k]
    have : t + (v + (rest.take k).sum) = t + v + (rest.take k).sum := by ring
    rw [this]
    ring

/-! ## Length and sum of the schedule -/

theorem rel_list_length (fpw : ℤ) (prev cur fut : ℕ) (h : 1 ≤ fpw) :
    (rel_list fpw prev cur fut).length = fpw.toNat := by
  have hfq : (0 : ℚ) ≤ (fpw : ℚ) / 2 := by
    have : (0 : ℚ) ≤ (fpw : ℚ) := by exact_mod_cast (by omega : (0 : ℤ) ≤ fpw)
    linarith
  have h1 : 0 ≤ ⌊(fpw : ℚ) / 2⌋ := Int.le_floor.mpr (by push_cast; linarith)
  have h2 : ⌊(fpw : ℚ) / 2⌋ < fpw := by
    refine Int.floor_lt.mpr ?_
    have : (1 : ℚ) ≤ (fpw : ℚ) := by exact_mod_cast h
    push_cast
    linarith
  unfold rel_list
  simp only [List.length_append, List.length_map, List.length_range]
  rw [pyInt_of_nonneg hfq]
  omega

theorem normalised_rel_length (fpw : ℤ) (prev cur fut : ℕ) (h : 1 ≤ fpw) :
    (normalised_rel fpw prev cur fut).length = fpw.toNat := by
  simp [normalised_rel, rel_list_length fpw prev cur fut h]

theorem normalised_list_eq (fpw : ℤ) (prev cur fut : ℕ) :
    normalised_list fpw prev cur fut =
      (truncLoop ((normalised_rel fpw prev cur fut).take (fpw - 1).toNat) 0 0).1 ++
        [(cur : ℤ) - (truncLoop ((normalised_rel fpw prev cur fut).take (fpw - 1).toNat) 0 0).2] := rfl

/-- Claim C1: for every week with `count(w) > 0` and every frame count
`frames_per_week >= 1`, the integer schedule produced by the running-total
truncation has length exactly `frames_per_week` and sums exactly to
`count(w)` — the final slot `week_count - added` absorbs the drift. -/
theorem C1_schedule_length_and_sum (fpw : ℤ) (prev cur fut : ℕ)
    (hf : 1 ≤ fpw) (hc : 0 < cur) :
    (normalised_list fpw prev cur fut).length = fpw.toNat ∧
    (normalised_list fpw prev cur fut).sum = (cur : ℤ) := by
  constructor
  · rw [normalised_list_eq, List.length_append, truncLoop_length, List.length_take,
      normalised_rel_length fpw prev cur fut hf]
    simp
    omega
  · rw [normalised_list_eq, List.sum_append, truncLoop_sum]
    simp

/-- Witness for C1 at the specification's own example
(`count(w-1)=10, count(w)=20, count(w+1)=20, frames_per_week=7`). -/
theorem C1_witness :
    (1 ≤ (7 : ℤ)) ∧ (0 < 20) ∧
      ((normalised_list 7 10 20 20).length = (7 : ℤ).toNat ∧
        (normalised_list 7 10 20 20).sum = (20 : ℤ)) :=
  ⟨by norm_num, by norm_num, C1_schedule_length_and_sum 7 10 20 20 (by norm_num) (by norm_num)⟩

/-! ## The week-to-week bookkeeping of the counts -/

/-- `previous_week_count` as the week loop maintains it: `0` before the
first week (source line 136), otherwise the previous week's count
(line 209). -/
def prev_week_count (counts : List ℕ) (w : ℕ) : ℕ :=
  if w = 0 then 0 else counts.getD (w - 1) 0

/-- `future_week_count` as the week loop computes it: the next week's
count, or the current week's count for the final week (source lines
162-164 and 169-170). -/
def future_week_count (counts : List ℕ) (w : ℕ) : ℕ :=
  if w + 1 = counts.length then counts.getD w 0 else counts.getD (w + 1) 0

/-- Claim C5: for every week with `count(w) > 0` the distributor's window
endpoints satisfy `start_relative = (count(w) + count(w-1)) / (2*count(w))`
and `end_relative = (count(w+1) - count(w)) / (2*count(w)) + 1`, with
`count(w-1) = 0` for the first week and `count(w+1) = count(w)` for the
last; and the week step hands exactly this week's count to the next week
as `previous_week_count`. -/
theorem C5_window_endpoints (counts : List ℕ) (w : ℕ) (hw : w < counts.length)
    (hc : 0 < counts.getD w 0) :
    start_point_rel (prev_week_count counts w) (counts.getD w 0) =
        ((counts.getD w 0 : ℚ) + (prev_week_count counts w : ℚ)) /
          (2 * (counts.getD w 0 : ℚ)) ∧
    end_point_rel (counts.getD w 0) (future_week_count counts w) =
        ((future_week_count counts w : ℚ) - (counts.getD w 0 : ℚ)) /
          (2 * (counts.getD w 0 : ℚ)) + 1 ∧
    (w = 0 → prev_week_count counts w = 0) ∧
    (w + 1 = counts.length → future_week_count counts w = counts.getD w 0) ∧
    ∀ (decay : ℚ) (fpd : ℤ) (sh : List Event) (cur fut : ℕ) (st : WState)
      (out : List (List Entry) × WState),
      weekStep decay fpd sh cur fut st = .ok out → out.2.prevCount = cur := by
  refine ⟨?_, ?_, ?_, ?_, ?_⟩
  · rw [start_point_rel, div_div]
  · rw [end_point_rel, div_div]
  · intro h
    simp [prev_week_count, h]
  · intro h
    simp [future_week_count, h]
  · intro decay fpd sh cur fut st out h
    unfold weekStep at h
    by_cases hst : (st.started || decide (0 < cur)) = true
    · rw [if_pos hst] at h
      cases hwf : weekFrames decay fpd
          (if 0 < cur then normalised_list (7 * fpd) st.prevCount cur fut else st.sched)
          sh st.hist with
      | error msg =>
        rw [hwf] at h
        cases h
      | ok p =>
        obtain ⟨frames, hist2⟩ := p
        rw [hwf] at h
        simp only [Except.ok.injEq] at h
        rw [← h]
    · rw [if_neg hst] at h
      simp only [Except.ok.injEq] at h
      rw [← h]

/-- Witness for C5 at `counts = [10, 20, 20]`, `w = 1`. -/
theorem C5_witness :
    (1 < [10, 20, 20].length) ∧ (0 < [10, 20, 20].getD 1 0) ∧
      (start_point_rel (prev_week_count [10, 20, 20] 1) ([10, 20, 20].getD 1 0) =
          (([10, 20, 20].getD 1 0 : ℚ) + (prev_week_count [10, 20, 20] 1 : ℚ)) /
            (2 * ([10, 20, 20].getD 1 0 : ℚ)) ∧
        end_point_rel ([10, 20, 20].getD 1 0) (future_week_count [10, 20, 20] 1) =
          ((future_week_count [10, 20, 20] 1 : ℚ) - ([10, 20, 20].getD 1 0 : ℚ)) /
            (2 * ([10, 20, 20].getD 1 0 : ℚ)) + 1 ∧
        (1 = 0 → prev_week_count [10, 20, 20] 1 = 0) ∧
        (1 + 1 = [10, 20, 20].length → future_week_count [10, 20, 20] 1 = [10, 20, 20].getD 1 0) ∧
        ∀ (decay : ℚ) (fpd : ℤ) (sh : List Event) (cur fut : ℕ) (st : WState)
          (out : List (List Entry) × WState),
          weekStep decay fpd sh cur fut st = .ok out → out.2.prevCount = cur) :=
  ⟨by norm_num, by norm_num, C5_window_endpoints [10, 20, 20] 1 (by norm_num) (by norm_num)⟩

/-! ## Behaviour of the schedule for a non-positive frame count -/

theorem pyInt_nonpos {q : ℚ} (h : q ≤ 0) : pyInt q ≤ 0 := by
  unfold pyInt
  split_ifs with h1
  · exact Int.ceil_le.mpr (by push_cast; exact h)
  · have : q = 0 := le_antisymm h (not_lt.mp h1)
    simp [this]

theorem pyInt_half_ge_self {fpw : ℤ} (h : fpw ≤ 0) : fpw ≤ pyInt ((fpw : ℚ) / 2) := by
  have hq : (fpw : ℚ) ≤ (fpw : ℚ) / 2 := by
    have : (fpw : ℚ) ≤ 0 := by exact_mod_cast h
    linarith
  unfold pyInt
  split_ifs with h1
  · calc fpw = ⌈(fpw : ℚ)⌉ := (Int.ceil_intCast fpw).symm
      _ ≤ ⌈(fpw : ℚ) / 2⌉ := Int.ceil_le_ceil hq
  · have : (0 : ℤ) ≤ ⌊(fpw : ℚ) / 2⌋ := Int.le_floor.mpr (by push_cast; exact not_lt.mp h1)
    omega

/-- With a non-positive frame count every `range` of the schedule
computation is empty and the schedule degenerates to the single final
slot `[week_count]` — exactly what Python produces, since
`range(frames_per_day * 7 - 1)` is empty. -/
theorem normalised_list_nonpos (fpw : ℤ) (prev cur fut : ℕ) (h : fpw ≤ 0) :
    normalised_list fpw prev cur fut = [(cur : ℤ)] := by
  have hq : (fpw : ℚ) ≤ 0 := by exact_mod_cast h
  have h1 : (pyInt ((fpw : ℚ) / 2)).toNat = 0 :=
    Int.toNat_eq_zero.mpr (pyInt_nonpos (by linarith))
  have h2 : (fpw - pyInt ((fpw : ℚ) / 2)).toNat = 0 := by
    have := pyInt_half_ge_self h
    omega
  have h3 : (fpw - 1).toNat = 0 := by omega
  simp only [normalised_list, normalised_rel, rel_list, h1, h2, h3, List.range_zero,
    List.map_nil, List.nil_append, List.append_nil, List.take_zero, List.take_nil]
  simp [truncLoop]

/-! ## Evaluation of the emission loop -/

theorem emitRange_stop (evs : List Event) (ci : ℕ) (t : ℤ) (h : t ≤ (ci : ℤ)) :
    emitRange evs ci t = .ok ([], ci) := by
  rw [emitRange, dif_neg (by omega)]

/-- When the target does not exceed the list length, the while loop emits
exactly the events with indices `ci, ..., t-1` and leaves `case_index = t`. -/
theorem emitRange_spec : ∀ (fuel : ℕ) (evs : List Event) (ci : ℕ) (t : ℤ),
    (t - (ci : ℤ)).toNat = fuel → (ci : ℤ) ≤ t → t ≤ (evs.length : ℤ) →
    emitRange evs ci t = .ok (((evs.drop ci).take (t.toNat - ci)).map toEntry, t.toNat)
  | 0, evs, ci, t, hfuel, h1, _h2 => by
    rw [emitRange, dif_neg (by omega)]
    have h3 : t.toNat - ci = 0 := by omega
    have h4 : t.toNat = ci := by omega
    rw [h3, h4]
    simp
  | fuel + 1, evs, ci, t, hfuel, h1, h2 => by
    have hlt : (ci : ℤ) < t := by omega
    have hci : ci < evs.length := by omega
    rw [emitRange, dif_pos hlt, List.getElem?_eq_getElem hci,
      emitRange_spec fuel evs (ci + 1) t (by omega) (by omega) h2]
    have hd : evs.drop ci = evs[ci] :: evs.drop (ci + 1) := List.drop_eq_getElem_cons hci
    have hn : t.toNat - ci = (t.toNat - (ci + 1)) + 1 := by omega
    rw [hd, hn, List.take_succ_cons]
    simp

theorem emitRange_eval (evs : List Event) (ci : ℕ) (t : ℤ)
    (h1 : (ci : ℤ) ≤ t) (h2 : t ≤ (evs.length : ℤ)) :
    emitRange evs ci t = .ok (((evs.drop ci).take (t.toNat - ci)).map toEntry, t.toNat) :=
  emitRange_spec (t - (ci : ℤ)).toNat evs ci t rfl h1 h2

/-- The frame loop of a week with a non-negative schedule that fits in the
event list: every frame succeeds, and the concatenation of the frames'
new entries is the slice of the event list up to the schedule's total. -/
theorem emitFrames_spec : ∀ (sch : List ℤ) (evs : List Event) (ci : ℕ) (rt : ℤ),
    rt = (ci : ℤ) → (∀ s ∈ sch, 0 ≤ s) → rt + sch.sum ≤ (evs.length : ℤ) →
    ∃ frames, emitFrames evs sch ci rt = .ok frames ∧
      frames.flatten = ((evs.drop ci).take ((rt + sch.sum).toNat - ci)).map toEntry
  | [], evs, ci, rt, hrt, _, _ => by
    refine ⟨[], rfl, ?_⟩
    have h0 : (rt + ([] : List ℤ).sum).toNat - ci = 0 := by
      simp only [List.sum_nil, add_zero]
      omega
    rw [h0]
    simp
  | s :: rest, evs, ci, rt, hrt, hpos, hlen => by
    have hs : 0 ≤ s := hpos s (by simp)
    have hrest : ∀ x ∈ rest, 0 ≤ x := fun x hx => hpos x (by simp [hx])
    have hrestsum : 0 ≤ rest.sum := List.sum_nonneg hrest
    have hsum : (s :: rest).sum = s + rest.sum := by simp
    have h1 : (ci : ℤ) ≤ rt + s := by omega
    have h2 : rt + s ≤ (evs.length : ℤ) := by rw [hsum] at hlen; omega
    obtain ⟨frames, hfr, hjoin⟩ :=
      emitFrames_spec rest evs (rt + s).toNat (rt + s) (by omega) hrest
        (by rw [hsum] at hlen; omega)
    refine ⟨(((evs.drop ci).take ((rt + s).toNat - ci)).map toEntry) :: frames, ?_, ?_⟩
    · unfold emitFrames
      simp only [emitRange_eval evs ci (rt + s) h1 h2, hfr]
    · rw [List.flatten_cons, hjoin]
      rw [← List.map_append]
      congr 1
      have hb0 : (0 : ℤ) ≤ rt + s + rest.sum := by
        have : (0 : ℤ) ≤ (evs.length : ℤ) := by positivity
        omega
      have hab : ((rt + s).toNat : ℤ) = rt + s := by omega
      have hsplit : (rt + (s :: rest).sum).toNat - ci =
          ((rt + s).toNat - ci) + (((rt + s) + rest.sum).toNat - (rt + s).toNat) := by
        rw [hsum]
        omega
      have harg : (rt + s + rest.sum).toNat - (rt + s).toNat =
          ((rt + s) + rest.sum).toNat - (rt + s).toNat := rfl
      rw [hsplit, List.take_add, List.drop_drop]
      have hc : ci + ((rt + s).toNat - ci) = (rt + s).toNat := by omega
      rw [hc]

theorem emitRange_nil_fail (ci : ℕ) (t : ℤ) (h : (ci : ℤ) < t) :
    emitRange [] ci t = .error "list index out of range" := by
  rw [emitRange, dif_pos h]
  rfl

theorem emitRange_cons_one (evs : List Event) (e : Event) :
    emitRange (e :: evs) 0 1 = .ok ([toEntry e], 1) := by
  rw [emitRange, dif_pos (by omega)]
  rw [emitRange, dif_neg (by omega)]
  simp

/-- Claim C2 (code bug): a week with `count(w) = 0` that follows a started
week does NOT emit zero-entry frames: since `normalised_list` is only
recomputed when `week_count > 0` (source line 176), the frame loop reuses
the previous positive week's schedule, whose slots sum to that week's
count (at least 1), and `weekly_outbreaks[case_index]` (line 229) indexes
into the now-empty list, raising `IndexError`.  Concrete run: one week
with a single outbreak followed by a week with none, `frames_per_day = 1`;
the decay factor is `1/2` here (the crash mechanism does not involve the
decay value: the single historical entry is deleted alone, which the purge
handles, and the crash occurs in the emission loop of the zero week's
seventh frame). -/
theorem C2_zero_week_raises :
    runWeeks (1/2) 1 idShuffle [[⟨3, 0, 0⟩], []] = .error "list index out of range" := by
  have t3 : Int.toNat 3 = 3 := rfl
  have t4 : Int.toNat 4 = 4 := rfl
  have t6 : Int.toNat (7 - 1 : ℤ) = 6 := rfl
  have t7 : Int.toNat (7 * 1 : ℤ) = 7 := rfl
  have hsched : normalised_list 7 0 1 0 = [0, 0, 0, 0, 0, 0, 1] := by
    norm_num [normalised_list, normalised_rel, rel_list, truncLoop, pyInt,
      start_point_rel, end_point_rel, List.range_succ, t3, t4, t6]
  have hw1 : weekFrames (1/2) 1 [0, 0, 0, 0, 0, 0, 1] [⟨3, 0, 0⟩] [] =
      .ok ([[], [], [], [], [], [], [⟨3, 0, 0, 0⟩]], [⟨3, 0, 0, 0⟩]) := by
    norm_num [weekFrames, weekFramesAux, frameStep, updateHistorical, deleteIndices,
      List.enum, List.enumFrom, List.filter, emitRange_stop, emitRange_cons_one, toEntry,
      t7, List.range_succ]
  have hw2 : weekFrames (1/2) 1 [0, 0, 0, 0, 0, 0, 1] [] [⟨3, 0, 0, 0⟩] =
      .error "list index out of range" := by
    norm_num [weekFrames, weekFramesAux, frameStep, updateHistorical, deleteIndices,
      delAt, List.enum, List.enumFrom, List.filter, emitRange_stop, emitRange_nil_fail,
      t7, List.range_succ]
  simp only [runWeeks, runWeeksAux, weekStep, idShuffle, List.length_cons, List.length_nil]
  norm_num [hsched, hw1, hw2]

/-- Claim C3 (code bug): the purge deletes by the indices collected before
any deletion, against the list as it shrinks (source lines 245-246).  With
two entries below threshold the second `del` is out of range and raises
`IndexError`; with two sub-threshold entries followed by one above
threshold, the purge removes the above-threshold entry and KEEPS a
sub-threshold one.  Stated for every decay factor in `[1/2, 1)` — the
program's float `decay_rate` lies in that interval for every
`frames_per_day >= 1`. -/
theorem C3_purge_deletes_wrong_indices (q : ℚ) (h1 : 1/2 ≤ q) (h2 : q < 1) :
    updateHistorical q 1 [⟨1/2, 0, 0, 0⟩, ⟨1/2, 0, 0, 0⟩] =
      .error "list index out of range" ∧
    updateHistorical q 1 [⟨1/2, 0, 0, 0⟩, ⟨1/2, 0, 0, 0⟩, ⟨10, 0, 0, 0⟩] =
      .ok [⟨1/2 * q, 0, 0, 1/7⟩] := by
  have hlow : (1/2 : ℚ) * q < 3/5 := by nlinarith
  have hhigh : ¬((10 : ℚ) * q < 3/5) := by
    push_neg
    linarith
  constructor <;>
    norm_num [updateHistorical, List.enum, List.enumFrom, List.filter, deleteIndices,
      delAt, hlow, hhigh]

/-- Witness for C3 at `q = 9/10`. -/
theorem C3_witness :
    ((1 : ℚ)/2 ≤ 9/10) ∧ ((9/10 : ℚ) < 1) ∧
      (updateHistorical (9/10) 1 [⟨1/2, 0, 0, 0⟩, ⟨1/2, 0, 0, 0⟩] =
          .error "list index out of range" ∧
        updateHistorical (9/10) 1 [⟨1/2, 0, 0, 0⟩, ⟨1/2, 0, 0, 0⟩, ⟨10, 0, 0, 0⟩] =
          .ok [⟨1/2 * (9/10), 0, 0, 1/7⟩]) :=
  ⟨by norm_num, by norm_num, C3_purge_deletes_wrong_indices (9/10) (by norm_num) (by norm_num)⟩

/-- Claim C4 is false as stated: with `frames_per_day = -1` (so
`frames_per_week <= 0`) the program does not fail at all, let alone report
a configuration error: the decay-rate computation succeeds and the week
loop runs to completion (zero frames per week, since `range` of a
negative number is empty).  The run below processes one week of data
without any error. -/
theorem C4_counterexample :
    initDecayExponent (-1) = .ok (-(1/7)) ∧
    runWeeks (9/10) (-1) idShuffle [[⟨3, 0, 0⟩]] = .ok ([[]], ⟨true, 1, [1], []⟩) := by
  constructor
  · norm_num [initDecayExponent]
  · norm_num [runWeeks, runWeeksAux, weekStep, weekFrames, weekFramesAux, idShuffle,
      normalised_list, normalised_rel, rel_list, truncLoop, pyInt, start_point_rel,
      end_point_rel]

/-- Claim C4 amended: the source validates `frames_per_day` nowhere.
`frames_per_day = 0` dies with an unhandled `ZeroDivisionError` while
computing `decay_rate` (source line 124, before the week loop); every
negative `frames_per_day` is accepted, initialization succeeds, and the
week loop processes all weeks emitting zero frames each. -/
theorem C4_no_validation :
    initDecayExponent 0 = .error "float division by zero" ∧
    ∀ fpd : ℤ, fpd < 0 →
      initDecayExponent fpd = .ok (1 / (7 * (fpd : ℚ))) ∧
      runWeeks (9/10) fpd idShuffle [[⟨3, 0, 0⟩]] = .ok ([[]], ⟨true, 1, [1], []⟩) := by
  constructor
  · norm_num [initDecayExponent]
  · intro fpd hf
    have hfq : ((fpd : ℚ)) ≠ 0 := Int.cast_ne_zero.mpr (by omega)
    constructor
    · rw [initDecayExponent, if_neg (by simp [hfq])]
    · have h7 : (7 * fpd).toNat = 0 := by omega
      have hsched := normalised_list_nonpos (7 * fpd) 0 1 1 (by omega)
      simp [runWeeks, runWeeksAux, weekStep, weekFrames, weekFramesAux, h7, hsched, idShuffle]

/-- Witness for C4's amended theorem at `frames_per_day = -1`. -/
theorem C4_witness :
    ((-1 : ℤ) < 0) ∧
      (initDecayExponent (-1) = .ok (1 / (7 * ((-1 : ℤ) : ℚ))) ∧
        runWeeks (9/10) (-1) idShuffle [[⟨3, 0, 0⟩]] = .ok ([[]], ⟨true, 1, [1], []⟩)) :=
  ⟨by norm_num, C4_no_validation.2 (-1) (by norm_num)⟩

/-! ## The decay factor over the reals -/

theorem decay_rate_pos (d : ℤ) : 0 < decay_rate d :=
  Real.rpow_pos_of_pos (by norm_num) _

theorem decay_rate_lt_one (d : ℤ) (hd : 1 ≤ d) : decay_rate d < 1 := by
  have h7 : (0 : ℝ) < 7 * (d : ℝ) := by
    have : (1 : ℝ) ≤ (d : ℝ) := by exact_mod_cast hd
    linarith
  exact Real.rpow_lt_one (by norm_num) (by norm_num) (by positivity)

/-- Claim C6: with `weekly_decay = 0.5` in `(0,1)` and `frames_per_day >= 1`
the per-frame factor is strictly between `0` and `1`, every positive
magnitude strictly decreases on each tick, and for any finite initial
magnitude the decayed magnitude falls below the removal threshold `0.6`
within a bounded number of frames (and stays below it). -/
theorem C6_decay_strict_and_bounded (d : ℤ) (hd : 1 ≤ d) :
    (0 < decay_rate d ∧ decay_rate d < 1) ∧
    (∀ m : ℝ, 0 < m → m * decay_rate d < m) ∧
    (∀ m : ℝ, 0 < m → ∃ N : ℕ, ∀ k : ℕ, N ≤ k → m * decay_rate d ^ k < 0.6) := by
  have hpos := decay_rate_pos d
  have hlt := decay_rate_lt_one d hd
  refine ⟨⟨hpos, hlt⟩, ?_, ?_⟩
  · intro m hm
    exact mul_lt_of_lt_one_right hm hlt
  · intro m hm
    obtain ⟨N, hN⟩ := exists_pow_lt_of_lt_one (show (0 : ℝ) < 0.6 / m by positivity) hlt
    refine ⟨N, fun k hk => ?_⟩
    calc m * decay_rate d ^ k ≤ m * decay_rate d ^ N := by
          exact mul_le_mul_of_nonneg_left (pow_le_pow_of_le_one hpos.le hlt.le hk) hm.le
      _ < m * (0.6 / m) := mul_lt_mul_of_pos_left hN hm
      _ = 0.6 := by field_simp

/-- Witness for C6 at `frames_per_day = 1`. -/
theorem C6_witness :
    (1 ≤ (1 : ℤ)) ∧
      ((0 < decay_rate 1 ∧ decay_rate 1 < 1) ∧
        (∀ m : ℝ, 0 < m → m * decay_rate 1 < m) ∧
        (∀ m : ℝ, 0 < m → ∃ N : ℕ, ∀ k : ℕ, N ≤ k → m * decay_rate 1 ^ k < 0.6)) :=
  ⟨le_refl 1, C6_decay_strict_and_bounded 1 (le_refl 1)⟩

theorem decay_rate_one : decay_rate 1 = (1 / 2 : ℝ) ^ ((1 : ℝ) / 7) := by
  unfold decay_rate
  norm_num

theorem decay_rate_one_pow_35 : decay_rate 1 ^ (35 : ℕ) = 1 / 32 := by
  rw [decay_rate_one, ← Real.rpow_natCast ((1 / 2 : ℝ) ^ ((1 : ℝ) / 7)) 35,
    ← Real.rpow_mul (by norm_num)]
  norm_num

/-- Claim C9: with `frames_per_week = 7` (`frames_per_day = 1`) and weekly
half-life `0.5` the per-frame multiplier is exactly `0.5 ^ (1/7)`,
`7 * ceil(log2 (10 / 0.6)) = 35`, and an entry of magnitude `10` has
decayed below the minimum visible magnitude `0.6` within `35` frames
(`10 * 0.5^5 = 0.3125 < 0.6`), remaining below it on every later frame. -/
theorem C9_magnitude_ten_below_within_35 :
    decay_rate 1 = (1 / 2 : ℝ) ^ ((1 : ℝ) / 7) ∧
    (35 : ℤ) = 7 * ⌈Real.logb 2 (10 / 0.6)⌉ ∧
    (10 : ℝ) * decay_rate 1 ^ (35 : ℕ) < 0.6 ∧
    ∀ k : ℕ, 35 ≤ k → (10 : ℝ) * decay_rate 1 ^ k < 0.6 := by
  have hceil : ⌈Real.logb 2 (10 / 0.6)⌉ = 5 := by
    have harg : (10 : ℝ) / 0.6 = 50 / 3 := by norm_num
    rw [harg, Int.ceil_eq_iff.mpr ?_]
    constructor
    · rw [show ((5 : ℤ) : ℝ) - 1 = 4 by norm_num]
      rw [Real.lt_logb_iff_rpow_lt (by norm_num) (by norm_num)]
      rw [show (4 : ℝ) = ((4 : ℕ) : ℝ) by norm_num, Real.rpow_natCast]
      norm_num
    · rw [Real.logb_le_iff_le_rpow (by norm_num) (by norm_num)]
      rw [show ((5 : ℤ) : ℝ) = ((5 : ℕ) : ℝ) by norm_num, Real.rpow_natCast]
      norm_num
  have h35 : (10 : ℝ) * decay_rate 1 ^ (35 : ℕ) < 0.6 := by
    rw [decay_rate_one_pow_35]
    norm_num
  refine ⟨decay_rate_one, by rw [hceil]; norm_num, h35, fun k hk => ?_⟩
  calc (10 : ℝ) * decay_rate 1 ^ k ≤ 10 * decay_rate 1 ^ (35 : ℕ) :=
        mul_le_mul_of_nonneg_left
          (pow_le_pow_of_le_one (decay_rate_pos 1).le (decay_rate_lt_one 1 (le_refl 1)).le hk)
          (by norm_num)
    _ < 0.6 := h35

/-! ## Ordering of emission, decay and append within a frame -/

theorem emitRange_ages : ∀ (fuel : ℕ) (evs : List Event) (ci : ℕ) (t : ℤ)
    (l : List Entry) (cif : ℕ), (t - (ci : ℤ)).toNat = fuel →
    emitRange evs ci t = .ok (l, cif) → ∀ e ∈ l, e.age = 0
  | 0, evs, ci, t, l, cif, hfuel, h => by
    rw [emitRange, dif_neg (by omega)] at h
    simp only [Except.ok.injEq, Prod.mk.injEq] at h
    obtain ⟨hl, _⟩ := h
    rw [← hl]
    intro e he
    cases he
  | fuel + 1, evs, ci, t, l, cif, hfuel, h => by
    have hlt : (ci : ℤ) < t := by omega
    rw [emitRange, dif_pos hlt] at h
    cases hev : evs[ci]? with
    | none =>
      rw [hev] at h
      cases h
    | some e =>
      rw [hev] at h
      cases hrec : emitRange evs (ci + 1) t with
      | error msg =>
        rw [hrec] at h
        cases h
      | ok p =>
        obtain ⟨l2, cif2⟩ := p
        rw [hrec] at h
        simp only [Except.ok.injEq, Prod.mk.injEq] at h
        obtain ⟨hl, _⟩ := h
        intro x hx
        rw [← hl] at hx
        rcases List.mem_cons.mp hx with hh | hh
        · rw [hh]
          rfl
        · exact emitRange_ages fuel evs (ci + 1) t l2 cif2 (by omega) hrec x hh

/-- Claim C7: whenever a frame step succeeds, the resulting historical
list is the decayed-and-purged previous list with this frame's new
entries appended at the end (source line 304 extends only after the decay
loop of lines 236-246), and every newly emitted entry still has age `0` —
a brand-new entry is never decayed or aged on the frame that emits it. -/
theorem C7_emit_after_decay (decay : ℚ) (fpd : ℤ) (evs : List Event) (ci : ℕ)
    (rt s : ℤ) (hist : List Entry) (fo : List Entry) (ci' : ℕ) (rt' : ℤ)
    (hist2 : List Entry)
    (h : frameStep decay fpd evs ci rt s hist = .ok (fo, ci', rt', hist2)) :
    ∃ histDecayed, updateHistorical decay fpd hist = .ok histDecayed ∧
      hist2 = histDecayed ++ fo ∧ ∀ e ∈ fo, e.age = 0 := by
  unfold frameStep at h
  dsimp only [] at h
  cases her : emitRange evs ci (rt + s) with
  | error msg =>
    rw [her] at h
    cases h
  | ok p =>
    obtain ⟨fo2, ci2⟩ := p
    rw [her] at h
    cases hup : updateHistorical decay fpd hist with
    | error msg =>
      rw [hup] at h
      cases h
    | ok hd =>
      rw [hup] at h
      simp only [Except.ok.injEq, Prod.mk.injEq] at h
      obtain ⟨hfo, _, _, hh⟩ := h
      refine ⟨hd, rfl, ?_, ?_⟩
      · rw [← hh, hfo]
      · rw [← hfo]
        exact emitRange_ages (rt + s - ci).toNat evs ci (rt + s) fo2 ci2 rfl her

/-- Witness for C7 on a concrete frame: one event emitted on top of one
surviving historical entry. -/
theorem C7_witness :
    ∃ histDecayed, updateHistorical (9/10) 1 [⟨1, 0, 0, 0⟩] = .ok histDecayed ∧
      ([⟨9/10, 0, 0, 1/7⟩, ⟨3, 0, 0, 0⟩] : List Entry) = histDecayed ++ [⟨3, 0, 0, 0⟩] ∧
      ∀ e ∈ ([⟨3, 0, 0, 0⟩] : List Entry), e.age = 0 :=
  C7_emit_after_decay (9/10) 1 [⟨3, 0, 0⟩] 0 0 1 [⟨1, 0, 0, 0⟩]
    [⟨3, 0, 0, 0⟩] 1 1 [⟨9/10, 0, 0, 1/7⟩, ⟨3, 0, 0, 0⟩]
    (by norm_num [frameStep, emitRange_cons_one, updateHistorical, List.enum,
      List.enumFrom, List.filter, deleteIndices, toEntry])

/-! ## Determinism of the run given the shuffle -/

theorem runWeeksAux_congr (decay : ℚ) (fpd : ℤ) (sh1 sh2 : ℕ → List Event → List Event) :
    ∀ (rest : List (List Event)) (w : ℕ) (st : WState),
    (∀ i, i < rest.length → sh1 (w + i) (rest.getD i []) = sh2 (w + i) (rest.getD i [])) →
    runWeeksAux decay fpd sh1 rest w st = runWeeksAux decay fpd sh2 rest w st
  | [], _, _, _ => rfl
  | evs :: rest, w, st, h => by
    have h0 : sh1 w evs = sh2 w evs := by
      have := h 0 (by simp)
      simpa using this
    have hrec : ∀ st', runWeeksAux decay fpd sh1 rest (w + 1) st' =
        runWeeksAux decay fpd sh2 rest (w + 1) st' := by
      intro st'
      refine runWeeksAux_congr decay fpd sh1 sh2 rest (w + 1) st' fun i hi => ?_
      have := h (i + 1) (by simpa using hi)
      simpa [Nat.add_assoc, Nat.add_comm 1 i] using this
    simp only [runWeeksAux, h0, hrec]

/-- Claim C8: the run is a pure function of the inputs, the configuration
and the shuffle's outcome: two runs whose shuffles agree on every week's
actual outbreak list (as they do when the random generator is seeded
identically) produce identical frame-by-frame emissions and identical
historical lifecycles — the full run results are equal. -/
theorem C8_same_shuffle_same_run (decay : ℚ) (fpd : ℤ)
    (sh1 sh2 : ℕ → List Event → List Event) (weeks : List (List Event))
    (h : ∀ w, w < weeks.length → sh1 w (weeks.getD w []) = sh2 w (weeks.getD w [])) :
    runWeeks decay fpd sh1 weeks = runWeeks decay fpd sh2 weeks :=
  runWeeksAux_congr decay fpd sh1 sh2 weeks 0 ⟨false, 0, [], []⟩ fun i hi => by
    simpa using h i hi

/-- Witness for C8: the identity shuffle and the reversing shuffle agree
on the single one-element week, so the two runs coincide. -/
theorem C8_witness :
    (∀ w, w < ([[⟨3, 0, 0⟩]] : List (List Event)).length →
      idShuffle w ([[(⟨3, 0, 0⟩ : Event)]].getD w []) =
        (fun (_ : ℕ) (l : List Event) => l.reverse) w ([[(⟨3, 0, 0⟩ : Event)]].getD w [])) ∧
    runWeeks (9/10) 1 idShuffle [[⟨3, 0, 0⟩]] =
      runWeeks (9/10) 1 (fun _ l => l.reverse) [[⟨3, 0, 0⟩]] := by
  have hyp : ∀ w, w < ([[⟨3, 0, 0⟩]] : List (List Event)).length →
      idShuffle w ([[(⟨3, 0, 0⟩ : Event)]].getD w []) =
        (fun (_ : ℕ) (l : List Event) => l.reverse) w ([[(⟨3, 0, 0⟩ : Event)]].getD w []) := by
    intro w hw
    have hw0 : w = 0 := by simpa using hw
    subst hw0
    simp [idShuffle]
  exact ⟨hyp, C8_same_shuffle_same_run (9/10) 1 idShuffle _ [[⟨3, 0, 0⟩]] hyp⟩

/-- Witness for C9's final conjunct at `k = 36`. -/
theorem C9_witness :
    35 ≤ 36 ∧ (10 : ℝ) * decay_rate 1 ^ (36 : ℕ) < 0.6 :=
  ⟨by norm_num, C9_magnitude_ten_below_within_35.2.2.2 36 (by norm_num)⟩

/-! ## Bounds on the schedule: every weight is at least one half -/

theorem start_point_rel_ge_half (prev cur : ℕ) (hc : 0 < cur) :
    (1/2 : ℚ) ≤ start_point_rel prev cur := by
  have hcq : (0 : ℚ) < (cur : ℚ) := by exact_mod_cast hc
  have hpq : (0 : ℚ) ≤ (prev : ℚ) := by positivity
  unfold start_point_rel
  rw [div_div, le_div_iff (by positivity)]
  linarith

theorem end_point_rel_ge_half (cur fut : ℕ) (hc : 0 < cur) :
    (1/2 : ℚ) ≤ end_point_rel cur fut := by
  have hcq : (0 : ℚ) < (cur : ℚ) := by exact_mod_cast hc
  have hfq : (0 : ℚ) ≤ (fut : ℚ) := by positivity
  unfold end_point_rel
  rw [div_div]
  have : (-(1/2) : ℚ) ≤ ((fut : ℚ) - (cur : ℚ)) / (2 * (cur : ℚ)) := by
    rw [le_div_iff (by positivity)]
    linarith
  linarith

theorem rel_list_mem_half (fpw : ℤ) (prev cur fut : ℕ) (hc : 0 < cur) :
    ∀ v ∈ rel_list fpw prev cur fut, (1/2 : ℚ) ≤ v := by
  intro v hv
  have hs := start_point_rel_ge_half prev cur hc
  have he := end_point_rel_ge_half cur fut hc
  simp only [rel_list, List.mem_append, List.mem_map, List.mem_range] at hv
  rcases hv with ⟨i, hi, hveq⟩ | ⟨i, hi, hveq⟩
  · have hrmp : 0 < pyInt ((fpw : ℚ) / 2) := by omega
    rw [if_pos hrmp] at hveq
    set spr := start_point_rel prev cur with hspr
    set R : ℚ := ((pyInt ((fpw : ℚ) / 2) : ℤ) : ℚ) with hR
    have hR0 : (0 : ℚ) < R := by rw [hR]; exact_mod_cast hrmp
    have hiR : (i : ℚ) ≤ R := by
      rw [hR]
      have : (i : ℤ) < pyInt ((fpw : ℚ) / 2) := by omega
      exact_mod_cast this.le
    have hα0 : (0 : ℚ) ≤ (i : ℚ) / R := by positivity
    have hα1 : (i : ℚ) / R ≤ 1 := by rw [div_le_one hR0]; exact hiR
    have hv' : v = (1 - (i : ℚ) / R) * spr + (i : ℚ) / R := by
      rw [← hveq]
      field_simp
      ring
    nlinarith [mul_nonneg (by linarith : (0:ℚ) ≤ 1 - (i : ℚ) / R)
      (by linarith : (0:ℚ) ≤ spr - 1/2)]
  · have hsmp : 0 < fpw - pyInt ((fpw : ℚ) / 2) := by omega
    set epr := end_point_rel cur fut with hepr
    set S : ℚ := ((fpw - pyInt ((fpw : ℚ) / 2) : ℤ) : ℚ) with hS
    have hS0 : (0 : ℚ) < S := by rw [hS]; exact_mod_cast hsmp
    have hiS : (i : ℚ) ≤ S := by
      rw [hS]
      have : (i : ℤ) < fpw - pyInt ((fpw : ℚ) / 2) := by omega
      exact_mod_cast this.le
    have hα0 : (0 : ℚ) ≤ (i : ℚ) / S := by positivity
    have hα1 : (i : ℚ) / S ≤ 1 := by rw [div_le_one hS0]; exact hiS
    have hv' : v = (1 - (i : ℚ) / S) + ((i : ℚ) / S) * epr := by
      rw [← hveq]
      field_simp
      ring
    nlinarith [mul_nonneg hα0 (by linarith : (0:ℚ) ≤ epr - 1/2)]

theorem rel_list_sum_pos (fpw : ℤ) (prev cur fut : ℕ) (hf : 1 ≤ fpw) (hc : 0 < cur) :
    0 < (rel_list fpw prev cur fut).sum := by
  have hlen : (rel_list fpw prev cur fut).length = fpw.toNat :=
    rel_list_length fpw prev cur fut hf
  have hmem := rel_list_mem_half fpw prev cur fut hc
  rcases hl : rel_list fpw prev cur fut with _ | ⟨v, rest⟩
  · rw [hl] at hlen
    simp at hlen
    omega
  · rw [hl] at hmem
    have hv : (1/2 : ℚ) ≤ v := hmem v (by simp)
    have hrest : 0 ≤ rest.sum :=
      List.sum_nonneg fun x hx => le_trans (by norm_num) (hmem x (by simp [hx]))
    simp only [List.sum_cons]
    linarith

theorem sum_map_div_mul (l : List ℚ) (S c : ℚ) :
    (l.map fun v => v / S * c).sum = l.sum / S * c := by
  induction l with
  | nil => simp
  | cons v rest ih =>
    simp only [List.map_cons, List.sum_cons, ih]
    ring

theorem normalised_rel_sum (fpw : ℤ) (prev cur fut : ℕ) (hf : 1 ≤ fpw) (hc : 0 < cur) :
    (normalised_rel fpw prev cur fut).sum = (cur : ℚ) := by
  have hpos := rel_list_sum_pos fpw prev cur fut hf hc
  rw [normalised_rel, sum_map_div_mul, div_self (ne_of_gt hpos), one_mul]

theorem normalised_rel_nonneg (fpw : ℤ) (prev cur fut : ℕ) (hf : 1 ≤ fpw) (hc : 0 < cur) :
    ∀ v ∈ normalised_rel fpw prev cur fut, 0 ≤ v := by
  intro v hv
  have hpos := rel_list_sum_pos fpw prev cur fut hf hc
  simp only [normalised_rel, List.mem_map] at hv
  obtain ⟨w, hw, hveq⟩ := hv
  have hw2 : (0 : ℚ) ≤ w := le_trans (by norm_num) (rel_list_mem_half fpw prev cur fut hc w hw)
  rw [← hveq]
  positivity

theorem take_sum_nonneg {α : Type} [OrderedAddCommMonoid α] (l : List α)
    (h : ∀ v ∈ l, 0 ≤ v) (k : ℕ) : 0 ≤ (l.take k).sum :=
  List.sum_nonneg fun x hx => h x (List.take_subset k l hx)

theorem take_sum_le_sum {α : Type} [OrderedAddCommMonoid α] (l : List α)
    (h : ∀ v ∈ l, 0 ≤ v) (k : ℕ) : (l.take k).sum ≤ l.sum := by
  conv_rhs => rw [← List.take_append_drop k l]
  rw [List.sum_append]
  have h2 : 0 ≤ (l.drop k).sum :=
    List.sum_nonneg fun x hx => h x (List.drop_subset k l hx)
  exact le_add_of_nonneg_right h2

/-- The schedule always sums to exactly `week_count`: the final slot
`week_count - added` absorbs whatever the truncation left. -/
theorem normalised_list_sum (fpw : ℤ) (prev cur fut : ℕ) :
    (normalised_list fpw prev cur fut).sum = (cur : ℤ) := by
  rw [normalised_list_eq, List.sum_append, truncLoop_sum]
  simp

theorem normalised_list_length (fpw : ℤ) (prev cur fut : ℕ) (hf : 1 ≤ fpw) :
    (normalised_list fpw prev cur fut).length = fpw.toNat := by
  rw [normalised_list_eq, List.length_append, truncLoop_length, List.length_take,
    normalised_rel_length fpw prev cur fut hf]
  simp
  omega

/-- Every slot of the schedule is non-negative: the running truncation is
monotone and the final slot cannot overshoot `week_count` since the
truncated running total never exceeds the (exact) total `week_count`. -/
theorem normalised_list_nonneg (fpw : ℤ) (prev cur fut : ℕ) (hf : 1 ≤ fpw) (hc : 0 < cur) :
    ∀ s ∈ normalised_list fpw prev cur fut, 0 ≤ s := by
  have hnr := normalised_rel_nonneg fpw prev cur fut hf hc
  have hnr' : ∀ v ∈ (normalised_rel fpw prev cur fut).take (fpw - 1).toNat, 0 ≤ v :=
    fun v hv => hnr v (List.take_subset _ _ hv)
  intro s hs
  rw [normalised_list_eq] at hs
  rcases List.mem_append.mp hs with h | h
  · rw [show (0 : ℤ) = pyInt 0 from pyInt_zero.symm] at h ⊢
    exact truncLoop_mem_nonneg _ 0 hnr' s h
  · have hse : s = (cur : ℤ) -
        (truncLoop ((normalised_rel fpw prev cur fut).take (fpw - 1).toNat) 0 0).2 := by
      simpa using h
    have hfin : (truncLoop ((normalised_rel fpw prev cur fut).take (fpw - 1).toNat) 0 0).2 =
        pyInt (((normalised_rel fpw prev cur fut).take (fpw - 1).toNat).sum) := by
      rw [show (0 : ℤ) = pyInt 0 from pyInt_zero.symm, truncLoop_fin]
      norm_num
    have htake0 : (0 : ℚ) ≤ ((normalised_rel fpw prev cur fut).take (fpw - 1).toNat).sum :=
      take_sum_nonneg _ hnr _
    have htake : ((normalised_rel fpw prev cur fut).take (fpw - 1).toNat).sum ≤ (cur : ℚ) := by
      calc ((normalised_rel fpw prev cur fut).take (fpw - 1).toNat).sum
          ≤ (normalised_rel fpw prev cur fut).sum := take_sum_le_sum _ hnr _
        _ = (cur : ℚ) := normalised_rel_sum fpw prev cur fut hf hc
    have : pyInt (((normalised_rel fpw prev cur fut).take (fpw - 1).toNat).sum) ≤ (cur : ℤ) := by
      rw [pyInt_of_nonneg htake0]
      calc ⌊((normalised_rel fpw prev cur fut).take (fpw - 1).toNat).sum⌋
          ≤ ⌊((cur : ℕ) : ℚ)⌋ := Int.floor_le_floor htake
        _ = (cur : ℤ) := Int.floor_natCast cur
    omega

/-- Claim C10: with `count(w) > 0`, during the frame-assignment loop the
running total of consumed schedule slots never exceeds `count(w)`; as a
consequence (the slots being non-negative and summing to exactly
`count(w)`) the `while` loop's index into the shuffled outbreak list
always stays in range, every frame succeeds, and the concatenation of the
frames' new entries is exactly the week's event list — each event is
emitted into exactly one (hence at most one) frame. -/
theorem C10_emission_in_range (fpw : ℤ) (prev cur fut : ℕ) (evs : List Event)
    (hf : 1 ≤ fpw) (hc : 0 < cur) (hlen : evs.length = cur) :
    (∀ k : ℕ, ((normalised_list fpw prev cur fut).take k).sum ≤ (cur : ℤ)) ∧
    ∃ frames, emitFrames evs (normalised_list fpw prev cur fut) 0 0 = .ok frames ∧
      frames.flatten = evs.map toEntry := by
  have hnn := normalised_list_nonneg fpw prev cur fut hf hc
  have hsum := normalised_list_sum fpw prev cur fut
  constructor
  · intro k
    calc ((normalised_list fpw prev cur fut).take k).sum
        ≤ (normalised_list fpw prev cur fut).sum := take_sum_le_sum _ hnn k
      _ = (cur : ℤ) := hsum
  · obtain ⟨frames, hok, hjoin⟩ :=
      emitFrames_spec (normalised_list fpw prev cur fut) evs 0 0 (by norm_num) hnn
        (by rw [hsum, hlen]; omega)
    refine ⟨frames, hok, ?_⟩
    rw [hjoin, hsum]
    have h1 : ((0 : ℤ) + (cur : ℤ)).toNat - 0 = cur := by omega
    rw [List.drop_zero, h1, ← hlen, List.take_length]

/-- Witness for C10 at `frames_per_week = 7`, a week of two events. -/
theorem C10_witness :
    (1 ≤ (7 : ℤ)) ∧ (0 < 2) ∧ (([⟨3, 0, 0⟩, ⟨4, 0, 0⟩] : List Event).length = 2) ∧
      ((∀ k : ℕ, ((normalised_list 7 0 2 0).take k).sum ≤ (2 : ℤ)) ∧
        ∃ frames, emitFrames [⟨3, 0, 0⟩, ⟨4, 0, 0⟩] (normalised_list 7 0 2 0) 0 0 =
            .ok frames ∧
          frames.flatten = ([⟨3, 0, 0⟩, ⟨4, 0, 0⟩] : List Event).map toEntry) :=
  ⟨by norm_num, by norm_num, by norm_num,
    C10_emission_in_range 7 0 2 0 [⟨3, 0, 0⟩, ⟨4, 0, 0⟩] (by norm_num) (by norm_num)
      (by norm_num)⟩
